import Mathlib

/-!
Shallow embedding of the reverse-tunnel agent pool store (`agentStore`) and
the proxy membership tracker (`ConnectedProxies`), together with the principal
identifier extraction helper (`getIDFromPrincipals`).

Modelling choices:
* An agent handle is compared by pointer identity only; we model it as a `Nat`
  (the pointer value).  Distinct handles are distinct numbers.
* Go strings handled by `strings.Split` are modelled as `List Char`; the proxy
  identifier sequences compared by `cmp.Equal` are modelled as `List String`
  with structural equality.
* Mutex acquisition and release bracket each operation and guard no suspension
  point, so in the sequential embedding each operation is a pure function from
  the guarded state to the new state and the returned values.
* The fire-and-forget notification goroutine of `updateProxyIDs` is modelled by
  a boolean telling whether the send on the change channel was dispatched.
-/

/-- An agent handle: an opaque reference compared by identity (pointer value). -/
abbrev Agent := Nat

namespace agentStore

/-- Embeds `agentStore.len`: the current count of held handles. -/
def len (agents : List Agent) : Nat :=
  agents.length

/-- Embeds `agentStore.add`: append the handle at the end (newest position). -/
def add (agents : List Agent) (agent : Agent) : List Agent :=
  agents ++ [agent]

/-- Embeds `agentStore.unsafeRemove`: scan for the first handle identical to
`agent`, splice it out and report `true`; report `false` leaving the list
unchanged when no handle matches. -/
def unsafeRemove : List Agent → Agent → List Agent × Bool
  | [], _ => ([], false)
  | x :: xs, agent =>
    if x = agent then (xs, true)
    else
      let r := unsafeRemove xs agent
      (x :: r.1, r.2)

/-- Embeds `agentStore.remove`: `unsafeRemove` under the write lock. -/
def remove (agents : List Agent) (agent : Agent) : List Agent × Bool :=
  unsafeRemove agents agent

/-- Embeds `agentStore.poplen`: pop the oldest (front) handle when the store
holds strictly more handles than the given value; the guard also rejects a
negative value and an empty store.  Returns the popped handle (if any) and the
new list. -/
def poplen (agents : List Agent) (l : Int) : Option Agent × List Agent :=
  if l < 0 ∨ agents.length = 0 then (none, agents)
  else if (agents.length : Int) ≤ l then (none, agents)
  else
    match agents with
    | [] => (none, agents)
    | agent :: rest => (some agent, rest)

/-- Embeds `agentStore.last`: return the handle at index `len - 1` without
removing it, or not-found when the store is empty. -/
def last (agents : List Agent) : Option Agent :=
  if h : agents.length = 0 then none
  else some (agents.get ⟨agents.length - 1, by omega⟩)

end agentStore

/-- Embeds the `ConnectedProxies` struct: the stored proxy-ID snapshot (the
change channel and the lock live outside the sequential state). -/
structure ConnectedProxies where
  ids : List String
deriving DecidableEq

/-- Embeds `NewConnectedProxies`: a tracker whose stored sequence is empty. -/
def NewConnectedProxies : ConnectedProxies :=
  { ids := [] }

/-- Embeds `ConnectedProxies.ProxyIDs`: the lock-protected read of `ids`. -/
def ConnectedProxies.ProxyIDs (p : ConnectedProxies) : List String :=
  p.ids

/-- Embeds `ConnectedProxies.updateProxyIDs`: compare the new sequence to the
stored one with `cmp.Equal` (structural equality); when equal, return leaving
the state alone; when different, store the new sequence and dispatch the
non-blocking send on the change channel.  The boolean reports whether that
send was dispatched. -/
def ConnectedProxies.updateProxyIDs (p : ConnectedProxies) (ids : List String) :
    ConnectedProxies × Bool :=
  if p.ids = ids then (p, false)
  else ({ ids := ids }, true)

/-- Embeds Go `strings.Split(s, ".")` with strings as character lists: the
pieces of the string between the occurrences of the separator, in order (the
result always has one more piece than there are separators). -/
def splitDot : List Char → List (List Char)
  | [] => [[]]
  | c :: cs =>
    if c = '.' then [] :: splitDot cs
    else
      match splitDot cs with
      | [] => [[c]]
      | p :: ps => (c :: p) :: ps

/-- Embeds `getIDFromPrincipals`: fail on an empty principal list, otherwise
take the first principal and, when splitting it on the dot yields more than
one piece, keep only the first piece. -/
def getIDFromPrincipals (principals : List (List Char)) : List Char × Bool :=
  match principals with
  | [] => ([], false)
  | id :: _ =>
    match splitDot id with
    | x :: _ :: _ => (x, true)
    | _ => (id, true)

/-- C1 (counterexample): with one stored handle and threshold `-1` the store
is non-empty and its size strictly exceeds the threshold, yet `poplen` returns
not-found — so the claim that a negative threshold with a non-empty pool still
triggers removal is false on the code (the `l < 0` guard rejects it). -/
theorem poplen_negative_threshold_counterexample :
    ([0] : List Agent) ≠ [] ∧ (-1 : Int) < (([0] : List Agent).length : Int) ∧
    (agentStore.poplen [0] (-1)).1 = none := by
  decide

/-- C1 (amended): `poplen` returns a handle iff the threshold is non-negative,
the store is non-empty and the size strictly exceeds the threshold (so a zero
threshold with a non-empty pool still triggers removal, but a negative
threshold never does); on success the store was `a :: rest`, the returned
handle is the front one (smallest insertion index) and the remaining store is
`rest`, so `len` decreases by exactly one. -/
theorem poplen_pops_iff_over_nonneg_threshold (agents : List Agent) (l : Int) :
    ((agentStore.poplen agents l).1.isSome = true ↔
      0 ≤ l ∧ agents ≠ [] ∧ l < (agents.length : Int)) ∧
    (∀ a rest, agents = a :: rest → 0 ≤ l → l < (agents.length : Int) →
      agentStore.poplen agents l = (some a, rest)) ∧
    (∀ a s2, agentStore.poplen agents l = (some a, s2) →
      agentStore.len s2 + 1 = agentStore.len agents ∧ agents.head? = some a) := by
  refine ⟨?_, ?_, ?_⟩
  · rcases agents with _ | ⟨a0, rest0⟩
    · simp [agentStore.poplen]
    · by_cases h0 : l < 0
      · simp only [agentStore.poplen, List.length_cons]
        rw [if_pos (Or.inl h0)]
        simp only [Option.isSome_none, Bool.false_eq_true, false_iff, not_and]
        intro hle
        omega
      · by_cases h1 : ((a0 :: rest0).length : Int) ≤ l
        · simp only [agentStore.poplen]
          rw [if_neg (by simp; omega), if_pos h1]
          simp only [Option.isSome_none, Bool.false_eq_true, false_iff, not_and]
          intro hle
          simp only [List.length_cons] at h1 ⊢
          omega
        · simp only [agentStore.poplen]
          rw [if_neg (by simp; omega), if_neg h1]
          simp only [Option.isSome_some, true_iff]
          refine ⟨by omega, by simp, by omega⟩
  · intro a rest h h0 h1
    subst h
    unfold agentStore.poplen
    rw [if_neg (by simp; omega), if_neg (by omega)]
  · intro a s2 h
    rcases agents with _ | ⟨a0, rest0⟩
    · simp [agentStore.poplen] at h
    · by_cases h0 : l < 0 ∨ (a0 :: rest0).length = 0
      · rw [agentStore.poplen, if_pos h0] at h
        simp at h
      · by_cases h1 : ((a0 :: rest0).length : Int) ≤ l
        · rw [agentStore.poplen, if_neg h0, if_pos h1] at h
          simp at h
        · rw [agentStore.poplen, if_neg h0, if_neg h1] at h
          obtain ⟨h2, h3⟩ := Prod.mk.injEq .. ▸ h
          obtain rfl := Option.some.injEq .. ▸ h2
          subst h3
          simp [agentStore.len]

/-- C1 (witness): the amended theorem at the concrete store `[5, 7]` with
threshold `1`: the pop succeeds, removes the front handle `5` and leaves
`[7]`. -/
theorem poplen_pops_iff_over_nonneg_threshold_witness :
    agentStore.poplen [5, 7] 1 = (some 5, [7]) ∧
    ((agentStore.poplen [5, 7] 1).1.isSome = true ↔
      0 ≤ (1 : Int) ∧ ([5, 7] : List Agent) ≠ [] ∧
        (1 : Int) < (([5, 7] : List Agent).length : Int)) :=
  ⟨(poplen_pops_iff_over_nonneg_threshold [5, 7] 1).2.1 5 [7] rfl (by decide) (by decide),
   (poplen_pops_iff_over_nonneg_threshold [5, 7] 1).1⟩

/-- The split of a character list on the dot is never the empty list of
pieces. -/
theorem splitDot_ne_nil (l : List Char) : splitDot l ≠ [] := by
  induction l with
  | nil => simp [splitDot]
  | cons c cs ih =>
    simp only [splitDot]
    split
    · simp
    · split <;> simp

/-- Splitting a dot-free character list yields the single piece: the list
itself. -/
theorem splitDot_no_dot (l : List Char) (h : ('.' : Char) ∉ l) : splitDot l = [l] := by
  induction l with
  | nil => rfl
  | cons c cs ih =>
    simp only [List.mem_cons, not_or] at h
    simp only [splitDot]
    rw [if_neg (fun hc => h.1 hc.symm), ih h.2]

/-- Splitting a character list that contains a dot yields the prefix before
the first dot as the first piece, followed by at least one more piece. -/
theorem splitDot_dot (l : List Char) (h : ('.' : Char) ∈ l) :
    ∃ qs, qs ≠ [] ∧ splitDot l = l.takeWhile (fun c => c != '.') :: qs := by
  induction l with
  | nil => cases h
  | cons c cs ih =>
    by_cases hc : c = '.'
    · subst hc
      refine ⟨splitDot cs, splitDot_ne_nil cs, ?_⟩
      simp [splitDot, List.takeWhile_cons]
    · have hcs : ('.' : Char) ∈ cs := by
        rcases List.mem_cons.mp h with h1 | h1
        · exact absurd h1.symm hc
        · exact h1
      obtain ⟨qs, hqs, hsp⟩ := ih hcs
      refine ⟨qs, hqs, ?_⟩
      simp only [splitDot]
      rw [if_neg hc, hsp, List.takeWhile_cons]
      simp [hc]

/-- C2: extraction fails exactly on the empty principal list; on a non-empty
list it succeeds with the first principal, truncated to the prefix before the
first dot when the first principal contains a dot, and returned whole
otherwise. -/
theorem getIDFromPrincipals_first_principal_truncated (ps : List (List Char)) :
    ((getIDFromPrincipals ps).2 = false ↔ ps = []) ∧
    (∀ id rest, ps = id :: rest → ('.' : Char) ∈ id →
      getIDFromPrincipals ps = (id.takeWhile (fun c => c != '.'), true)) ∧
    (∀ id rest, ps = id :: rest → ('.' : Char) ∉ id →
      getIDFromPrincipals ps = (id, true)) := by
  refine ⟨?_, ?_, ?_⟩
  · rcases ps with _ | ⟨id, rest⟩
    · simp [getIDFromPrincipals]
    · have hne := splitDot_ne_nil id
      rcases hsp : splitDot id with _ | ⟨x, t⟩
      · exact absurd hsp hne
      · rcases t with _ | ⟨y, t2⟩ <;> simp [getIDFromPrincipals, hsp]
  · intro id rest h hdot
    subst h
    obtain ⟨qs, hqs, hsp⟩ := splitDot_dot id hdot
    rcases qs with _ | ⟨q, qt⟩
    · exact absurd rfl hqs
    · simp [getIDFromPrincipals, hsp]
  · intro id rest h hdot
    subst h
    simp [getIDFromPrincipals, splitDot_no_dot id hdot]

/-- C2 (witness): the contract evaluated at the concrete scenarios of the
spec: `["abc123.cluster-a", "other"]` yields `"abc123"`, `["xyz"]` yields
`"xyz"`, and the empty list fails. -/
theorem getIDFromPrincipals_first_principal_truncated_witness :
    getIDFromPrincipals ["abc123.cluster-a".toList, "other".toList]
      = ("abc123".toList, true) ∧
    getIDFromPrincipals ["xyz".toList] = ("xyz".toList, true) ∧
    (getIDFromPrincipals []).2 = false := by
  refine ⟨?_, ?_, ?_⟩
  · rw [(getIDFromPrincipals_first_principal_truncated
      ["abc123.cluster-a".toList, "other".toList]).2.1
      "abc123.cluster-a".toList ["other".toList] rfl (by decide)]
    decide
  · exact (getIDFromPrincipals_first_principal_truncated
      ["xyz".toList]).2.2 "xyz".toList [] rfl (by decide)
  · exact (getIDFromPrincipals_first_principal_truncated []).1.mpr rfl

/-- C9: when the first principal begins with a dot, extraction still succeeds
and returns the empty identifier — the prefix before the first dot is empty
and nothing validates it. -/
theorem getIDFromPrincipals_empty_identifier (tl : List Char) (rest : List (List Char)) :
    getIDFromPrincipals (('.' :: tl) :: rest) = ([], true) := by
  obtain ⟨q, qt, hq⟩ := List.exists_cons_of_ne_nil (splitDot_ne_nil tl)
  simp [getIDFromPrincipals, splitDot, hq]

/-- Whatever was stored before, after `updateProxyIDs` the stored sequence is
the published one. -/
theorem updateProxyIDs_fst_ids (p : ConnectedProxies) (ids : List String) :
    (p.updateProxyIDs ids).1.ids = ids := by
  unfold ConnectedProxies.updateProxyIDs
  split
  · assumption
  · rfl

/-- Publishing a sequence equal to the stored one is a no-op with no
signal. -/
theorem updateProxyIDs_noop (p : ConnectedProxies) (ids : List String)
    (h : p.ids = ids) : p.updateProxyIDs ids = (p, false) := by
  simp [ConnectedProxies.updateProxyIDs, h]

/-- C3: publishing a sequence structurally equal to the stored one is a no-op
that keeps the state and dispatches no signal; and publishing the same
sequence twice in a row never dispatches a signal on the second call, whatever
the first did. -/
theorem updateProxyIDs_idempotent (p : ConnectedProxies) (ids : List String) :
    (p.ids = ids → p.updateProxyIDs ids = (p, false)) ∧
    (p.updateProxyIDs ids).1.updateProxyIDs ids = ((p.updateProxyIDs ids).1, false) :=
  ⟨updateProxyIDs_noop p ids, updateProxyIDs_noop _ ids (updateProxyIDs_fst_ids p ids)⟩

/-- C3 (witness): the idempotence theorem at the tracker storing
`["p1", "p2"]` and a republish of the same sequence. -/
theorem updateProxyIDs_idempotent_witness :
    ConnectedProxies.updateProxyIDs { ids := ["p1", "p2"] } ["p1", "p2"]
      = ({ ids := ["p1", "p2"] }, false) :=
  (updateProxyIDs_idempotent { ids := ["p1", "p2"] } ["p1", "p2"]).1 rfl

/-- A sequence of `updateProxyIDs` calls folded over the tracker state (the
sequential interleaving of publishers). -/
def runPublishes (p : ConnectedProxies) : List (List String) → ConnectedProxies
  | [] => p
  | ids :: rest => runPublishes (p.updateProxyIDs ids).1 rest

/-- C4: after any sequence of publish calls the stored sequence read by
`ProxyIDs` is the argument of the most recent call — in particular publishing
A then B then C leaves C stored, never A or B. -/
theorem currentIDs_most_recent_publish (p : ConnectedProxies)
    (pubs : List (List String)) (ids : List String) :
    (runPublishes p (pubs ++ [ids])).ProxyIDs = ids := by
  induction pubs generalizing p with
  | nil => simp [runPublishes, ConnectedProxies.ProxyIDs, updateProxyIDs_fst_ids]
  | cons q qs ih =>
    simp only [List.cons_append, runPublishes]
    exact ih _

/-- When the handle is present, `unsafeRemove` removes exactly the first
occurrence, keeping the elements before and after it in order. -/
theorem unsafeRemove_mem (s : List Agent) (a : Agent) (h : a ∈ s) :
    ∃ l r, s = l ++ a :: r ∧ a ∉ l ∧ agentStore.unsafeRemove s a = (l ++ r, true) := by
  induction s with
  | nil => cases h
  | cons x xs ih =>
    by_cases hx : x = a
    · subst hx
      exact ⟨[], xs, rfl, by simp, by simp [agentStore.unsafeRemove]⟩
    · have hxs : a ∈ xs := by
        rcases List.mem_cons.mp h with h1 | h1
        · exact absurd h1.symm hx
        · exact h1
      obtain ⟨l, r, hs, hnl, hrm⟩ := ih hxs
      refine ⟨x :: l, r, by rw [hs]; rfl, ?_, ?_⟩
      · simp only [List.mem_cons, not_or]
        exact ⟨fun h2 => hx h2.symm, hnl⟩
      · simp only [agentStore.unsafeRemove]
        rw [if_neg hx, hrm]
        rfl

/-- When the handle is absent, `unsafeRemove` reports not-found and leaves the
list unchanged. -/
theorem unsafeRemove_not_mem (s : List Agent) (a : Agent) (h : a ∉ s) :
    agentStore.unsafeRemove s a = (s, false) := by
  induction s with
  | nil => rfl
  | cons x xs ih =>
    simp only [List.mem_cons, not_or] at h
    simp only [agentStore.unsafeRemove]
    rw [if_neg (fun hx => h.1 hx.symm), ih h.2]

/-- C5: `remove` deletes the first handle matching by identity, preserving the
relative order of the rest, and returns found; on a handle not present (never
added, or already removed) it returns not-found and leaves the store
unchanged. -/
theorem remove_first_identity_match (s : List Agent) (a : Agent) :
    (a ∈ s → ∃ l r, s = l ++ a :: r ∧ a ∉ l ∧
      agentStore.remove s a = (l ++ r, true)) ∧
    (a ∉ s → agentStore.remove s a = (s, false)) :=
  ⟨fun h => unsafeRemove_mem s a h, fun h => unsafeRemove_not_mem s a h⟩

/-- C5 (witness): the removal theorem at the concrete store `[1, 2]`: removing
the present handle `2` succeeds leaving `[1]`, removing the absent handle `3`
fails leaving the store unchanged. -/
theorem remove_first_identity_match_witness :
    (∃ l r, ([1, 2] : List Agent) = l ++ 2 :: r ∧ 2 ∉ l ∧
      agentStore.remove [1, 2] 2 = (l ++ r, true)) ∧
    agentStore.remove [1, 2] 3 = ([1, 2], false) :=
  ⟨(remove_first_identity_match [1, 2] 2).1 (by decide),
   (remove_first_identity_match [1, 2] 3).2 (by decide)⟩

/-- One call against the agent store: an `add` or a `remove` of a handle. -/
inductive Op where
  | add : Agent → Op
  | remove : Agent → Op

/-- Run a sequence of store calls from a given store; returns the final store,
the number of `add` calls and the number of `remove` calls that found their
handle. -/
def runOps (s : List Agent) : List Op → List Agent × Nat × Nat
  | [] => (s, 0, 0)
  | Op.add a :: ops =>
    let r := runOps (agentStore.add s a) ops
    (r.1, r.2.1 + 1, r.2.2)
  | Op.remove a :: ops =>
    let t := agentStore.remove s a
    let r := runOps t.1 ops
    (r.1, r.2.1, if t.2 then r.2.2 + 1 else r.2.2)

/-- A `remove` call shrinks the store by one exactly when it reports found. -/
theorem remove_length (s : List Agent) (a : Agent) :
    (agentStore.remove s a).1.length + ((agentStore.remove s a).2).toNat
      = s.length := by
  unfold agentStore.remove
  induction s with
  | nil => rfl
  | cons x xs ih =>
    simp only [agentStore.unsafeRemove]
    split
    · simp
    · simp only [List.length_cons]
      omega

/-- Running store calls from any store, the final size plus the successful
removes equals the initial size plus the adds. -/
theorem runOps_length (ops : List Op) : ∀ s : List Agent,
    (runOps s ops).1.length + (runOps s ops).2.2
      = s.length + (runOps s ops).2.1 := by
  induction ops with
  | nil => intro s; rfl
  | cons op ops ih =>
    intro s
    cases op with
    | add a =>
      simp only [runOps]
      have h := ih (agentStore.add s a)
      have hlen : (agentStore.add s a).length = s.length + 1 := by
        simp [agentStore.add]
      omega
    | remove a =>
      simp only [runOps]
      have h := ih (agentStore.remove s a).1
      have h2 := remove_length s a
      have h3 : (if (agentStore.remove s a).2 = true
            then (runOps (agentStore.remove s a).1 ops).2.2 + 1
            else (runOps (agentStore.remove s a).1 ops).2.2)
          = (runOps (agentStore.remove s a).1 ops).2.2
            + ((agentStore.remove s a).2).toNat := by
        cases (agentStore.remove s a).2 <;> simp
      rw [h3]
      omega

/-- C6: for every sequence of `add`/`remove` calls applied to a store created
empty, the final `len` equals the number of adds minus the number of removes
that returned found (which never exceeds the number of adds). -/
theorem size_eq_adds_minus_successful_removes (ops : List Op) :
    agentStore.len (runOps [] ops).1
      = (runOps [] ops).2.1 - (runOps [] ops).2.2 ∧
    (runOps [] ops).2.2 ≤ (runOps [] ops).2.1 := by
  have h := runOps_length ops []
  unfold agentStore.len
  simp only [List.length_nil] at h
  omega

/-- A found `remove` decreases the number of occurrences of the removed handle
by exactly one; it is found whenever the handle occurs. -/
theorem remove_count (s : List Agent) (a : Agent) (h : a ∈ s) :
    (agentStore.remove s a).2 = true ∧
    (agentStore.remove s a).1.count a + 1 = s.count a := by
  unfold agentStore.remove
  induction s with
  | nil => cases h
  | cons x xs ih =>
    simp only [agentStore.unsafeRemove]
    by_cases hx : x = a
    · subst hx
      rw [if_pos rfl]
      exact ⟨rfl, by simp⟩
    · have hxs : a ∈ xs := by
        rcases List.mem_cons.mp h with h1 | h1
        · exact absurd h1.symm hx
        · exact h1
      obtain ⟨h1, h2⟩ := ih hxs
      rw [if_neg hx]
      refine ⟨h1, ?_⟩
      have hne : a ≠ x := fun h3 => hx h3.symm
      simp only [List.count_cons_of_ne hne]
      exact h2

/-- C10: the store does not deduplicate, so adding the same handle twice
leaves two occurrences, and `remove` sheds them one per call: the first call
returns found leaving exactly one occurrence, the second returns found again
and removes the last one. -/
theorem remove_sheds_duplicates_one_per_call (s0 : List Agent) (a : Agent)
    (h : s0.count a = 0) :
    ((agentStore.add (agentStore.add s0 a) a).count a = 2) ∧
    (agentStore.remove (agentStore.add (agentStore.add s0 a) a) a).2 = true ∧
    ((agentStore.remove (agentStore.add (agentStore.add s0 a) a) a).1.count a = 1) ∧
    (agentStore.remove
      (agentStore.remove (agentStore.add (agentStore.add s0 a) a) a).1 a).2 = true ∧
    ((agentStore.remove
      (agentStore.remove (agentStore.add (agentStore.add s0 a) a) a).1 a).1.count a
        = 0) := by
  have hcount : (agentStore.add (agentStore.add s0 a) a).count a = 2 := by
    simp [agentStore.add, List.count_append, h]
  have hmem : a ∈ agentStore.add (agentStore.add s0 a) a :=
    List.count_pos_iff.mp (by omega)
  obtain ⟨hb1, hc1⟩ := remove_count _ a hmem
  have hcnt1 :
      (agentStore.remove (agentStore.add (agentStore.add s0 a) a) a).1.count a = 1 := by
    omega
  have hmem1 : a ∈ (agentStore.remove (agentStore.add (agentStore.add s0 a) a) a).1 :=
    List.count_pos_iff.mp (by omega)
  obtain ⟨hb2, hc2⟩ := remove_count _ a hmem1
  exact ⟨hcount, hb1, hcnt1, hb2, by omega⟩

/-- C10 (witness): the duplicate-shedding theorem at the empty initial store
and handle `7`. -/
theorem remove_sheds_duplicates_one_per_call_witness :
    (agentStore.remove (agentStore.add (agentStore.add [] 7) 7) 7).2 = true ∧
    (agentStore.remove (agentStore.add (agentStore.add [] 7) 7) 7).1.count 7 = 1 ∧
    (agentStore.remove
      (agentStore.remove (agentStore.add (agentStore.add [] 7) 7) 7).1 7).2 = true ∧
    (agentStore.remove
      (agentStore.remove (agentStore.add (agentStore.add [] 7) 7) 7).1 7).1.count 7
        = 0 :=
  ⟨(remove_sheds_duplicates_one_per_call [] 7 rfl).2.1,
   (remove_sheds_duplicates_one_per_call [] 7 rfl).2.2.1,
   (remove_sheds_duplicates_one_per_call [] 7 rfl).2.2.2.1,
   (remove_sheds_duplicates_one_per_call [] 7 rfl).2.2.2.2⟩

/-- `remove` is `unsafeRemove` under the lock; in the sequential embedding the
two coincide. -/
theorem remove_eq_unsafeRemove (s : List Agent) (a : Agent) :
    agentStore.remove s a = agentStore.unsafeRemove s a := rfl

/-- `unsafeRemove` on a store whose handles carry a ghost insertion timestamp:
the scan compares only the handle, exactly as the source compares pointers. -/
def unsafeRemoveT : List (Agent × Nat) → Agent → List (Agent × Nat) × Bool
  | [], _ => ([], false)
  | x :: xs, agent =>
    if x.1 = agent then (xs, true)
    else
      let r := unsafeRemoveT xs agent
      (x :: r.1, r.2)

/-- Run a sequence of store calls carrying ghost insertion timestamps: each
`add` stamps its handle with the index of that add, `remove` scans by handle
identity exactly as the store does. -/
def runTrace : List Op → List (Agent × Nat) → Nat → List (Agent × Nat) × Nat
  | [], st, n => (st, n)
  | Op.add a :: ops, st, n => runTrace ops (st ++ [(a, n)]) (n + 1)
  | Op.remove a :: ops, st, n => runTrace ops (unsafeRemoveT st a).1 n

/-- The timestamped removal keeps a sublist of the store. -/
theorem unsafeRemoveT_sublist (l : List (Agent × Nat)) (a : Agent) :
    (unsafeRemoveT l a).1.Sublist l := by
  induction l with
  | nil => simp [unsafeRemoveT]
  | cons x xs ih =>
    simp only [unsafeRemoveT]
    split
    · exact List.sublist_cons_self x xs
    · exact List.Sublist.cons₂ x ih

/-- Erasing the timestamps, the timestamped removal is exactly the store's
removal. -/
theorem unsafeRemoveT_map_fst (l : List (Agent × Nat)) (a : Agent) :
    (unsafeRemoveT l a).1.map Prod.fst
      = (agentStore.unsafeRemove (l.map Prod.fst) a).1 ∧
    (unsafeRemoveT l a).2 = (agentStore.unsafeRemove (l.map Prod.fst) a).2 := by
  induction l with
  | nil => exact ⟨rfl, rfl⟩
  | cons x xs ih =>
    simp only [unsafeRemoveT, List.map_cons, agentStore.unsafeRemove]
    split_ifs with hx
    · exact ⟨rfl, rfl⟩
    · refine ⟨?_, ih.2⟩
      simp only [List.map_cons, ih.1]

/-- Erasing the timestamps, the timestamped run is exactly the store run. -/
theorem runTrace_map_fst : ∀ (ops : List Op) (st : List (Agent × Nat)) (n : Nat),
    (runTrace ops st n).1.map Prod.fst = (runOps (st.map Prod.fst) ops).1 := by
  intro ops
  induction ops with
  | nil => intro st n; rfl
  | cons op ops ih =>
    intro st n
    cases op with
    | add a =>
      simp only [runTrace, runOps]
      rw [ih]
      congr 1
      simp [agentStore.add]
    | remove a =>
      simp only [runTrace, runOps]
      rw [ih, remove_eq_unsafeRemove, (unsafeRemoveT_map_fst st a).1]

/-- Along any run, the surviving timestamps stay strictly increasing and below
the next fresh timestamp. -/
theorem runTrace_inv : ∀ (ops : List Op) (st : List (Agent × Nat)) (n : Nat),
    ((∀ p ∈ st, p.2 < n) ∧ List.Pairwise (fun p q => p.2 < q.2) st) →
    (∀ p ∈ (runTrace ops st n).1, p.2 < (runTrace ops st n).2) ∧
    List.Pairwise (fun p q => p.2 < q.2) (runTrace ops st n).1 := by
  intro ops
  induction ops with
  | nil => intro st n h; exact h
  | cons op ops ih =>
    intro st n h
    cases op with
    | add a =>
      simp only [runTrace]
      apply ih
      constructor
      · intro p hp
        rcases List.mem_append.mp hp with h1 | h1
        · exact Nat.lt_succ_of_lt (h.1 p h1)
        · simp only [List.mem_singleton] at h1
          subst h1
          exact Nat.lt_succ_self n
      · rw [List.pairwise_append]
        refine ⟨h.2, List.pairwise_singleton _ _, ?_⟩
        intro p hp q hq
        simp only [List.mem_singleton] at hq
        subst hq
        exact h.1 p hp
    | remove a =>
      simp only [runTrace]
      apply ih
      exact ⟨fun p hp => h.1 p ((unsafeRemoveT_sublist st a).subset hp),
        List.Pairwise.sublist (unsafeRemoveT_sublist st a) h.2⟩

/-- `last` reads the final element of the sequence. -/
theorem last_eq_getLast? (l : List Agent) : agentStore.last l = l.getLast? := by
  induction l with
  | nil => rfl
  | cons x xs ih =>
    cases xs with
    | nil => rfl
    | cons y t =>
      have h1 : agentStore.last (x :: y :: t) = agentStore.last (y :: t) := rfl
      rw [h1, ih, List.getLast?_cons_cons]

/-- In a strictly increasing timestamped list, the final element carries the
maximal timestamp. -/
theorem pairwise_getLast_max : ∀ l : List (Agent × Nat),
    List.Pairwise (fun p q => p.2 < q.2) l →
    ∀ q, l.getLast? = some q → ∀ p ∈ l, p.2 ≤ q.2 := by
  intro l
  induction l with
  | nil =>
    intro _ q hq
    simp at hq
  | cons x xs ih =>
    intro hp q hq p hpmem
    cases xs with
    | nil =>
      simp only [List.getLast?_singleton, Option.some.injEq] at hq
      simp only [List.mem_singleton] at hpmem
      subst hq
      subst hpmem
      exact Nat.le_refl _
    | cons y t =>
      rw [List.getLast?_cons_cons] at hq
      rcases List.mem_cons.mp hpmem with rfl | hmem
      · have hqmem : q ∈ y :: t := List.mem_of_getLast?_eq_some hq
        exact Nat.le_of_lt ((List.pairwise_cons.mp hp).1 q hqmem)
      · exact ih (List.pairwise_cons.mp hp).2 q hq p hmem

/-- C7: `last` returns not-found exactly on the empty store, and on a
non-empty store it returns — without mutating the store — the handle of the
final element, whose ghost timestamp is maximal among the survivors of the
run, i.e. the most recently added surviving handle; erasing timestamps, the
traced run is the plain store run. -/
theorem last_most_recent_surviving (ops : List Op) :
    (runTrace ops [] 0).1.map Prod.fst = (runOps [] ops).1 ∧
    (agentStore.last ((runTrace ops [] 0).1.map Prod.fst) = none ↔
      (runTrace ops [] 0).1 = []) ∧
    (∀ q, (runTrace ops [] 0).1.getLast? = some q →
      agentStore.last ((runTrace ops [] 0).1.map Prod.fst) = some q.1 ∧
      ∀ p ∈ (runTrace ops [] 0).1, p.2 ≤ q.2) := by
  have hc := runTrace_map_fst ops [] 0
  have hinv := runTrace_inv ops [] 0
    ⟨fun p hp => absurd hp (List.not_mem_nil p), List.Pairwise.nil⟩
  refine ⟨hc, ?_, ?_⟩
  · rw [last_eq_getLast?, List.getLast?_map]
    simp
  · intro q hq
    refine ⟨?_, pairwise_getLast_max _ hinv.2 q hq⟩
    rw [last_eq_getLast?, List.getLast?_map, hq]
    rfl

/-- C7 (witness): the run add 1, add 2, remove 1 leaves handle 2 (stamped with
add index 1) as the sole survivor, and `last` returns it. -/
theorem last_most_recent_surviving_witness :
    agentStore.last ((runTrace [Op.add 1, Op.add 2, Op.remove 1] [] 0).1.map Prod.fst)
      = some 2 ∧
    ∀ p ∈ (runTrace [Op.add 1, Op.add 2, Op.remove 1] [] 0).1, p.2 ≤ 1 :=
  ⟨((last_most_recent_surviving [Op.add 1, Op.add 2, Op.remove 1]).2.2 (2, 1)
      (by decide)).1,
   ((last_most_recent_surviving [Op.add 1, Op.add 2, Op.remove 1]).2.2 (2, 1)
      (by decide)).2⟩
